import Mathlib

/-!
Verification of the hackmud-script-manager synchronization engine
(`src/index.ts`): the push orchestrator, the watch orchestrator's
per-user incremental path, the macro merger (`syncMacros`), and the
`hackmudLength` helper.

The TypeScript source is shallowly embedded: directory listings become
lists of `FsEntry`, file contents are carried in the entries (or given
as parameters), and the external transformation pipeline
(`processScript`, spec §4.5 "Transformer") is a parameter
`T : String → Option String` (`none` models a rejected promise,
`some s` a fulfilled one; the engine itself further treats `some ""`
as the "processed script was empty" failure).  JavaScript strings are
modelled as Lean `String`s (sequences of scalar values); the string
helpers that the code uses (`path.extname`, `path.basename`,
`String.prototype.split`) are re-implemented structurally below so
that they mirror the library semantics on the inputs at hand and
evaluate inside the kernel.
-/

set_option autoImplicit false

namespace HSM

/-! ## JavaScript / Node string primitives -/

/-- `String.prototype.split` with a single-character separator:
split a character list at every occurrence of `sep`, keeping empty
segments (so the result always has one more segment than there are
separators). -/
def splitChar (sep : Char) : List Char → List (List Char)
  | [] => [[]]
  | c :: cs =>
    let r := splitChar sep cs
    if c = sep then [] :: r else (c :: r.headD []) :: r.tail

/-- `s.split(sep)` for a one-character separator `sep`. -/
def jsSplit (s : String) (sep : Char) : List String :=
  (splitChar sep s.data).map (fun l => String.mk l)

/-- Index of the last occurrence of `c`, if any. -/
def lastIdxOf (c : Char) : List Char → Option Nat
  | [] => none
  | x :: xs =>
    match lastIdxOf c xs with
    | some i => some (i + 1)
    | none => if x = c then some 0 else none

/-- The final `/`-separated portion of a path (Node's notion of the
basename on which `extname`/`basename` operate). -/
def lastPortion (s : String) : String :=
  (jsSplit s '/').getLastD s

/-- Node `path.extname`: the part of the last path portion from its last
`.` to the end; `""` when there is no dot or the dot is the leading
character. -/
def extname (s : String) : String :=
  let cs := (lastPortion s).data
  match lastIdxOf '.' cs with
  | none => ""
  | some 0 => ""
  | some i => String.mk (cs.drop i)

/-- Node `path.basename(s, ext)`: the last path portion with the suffix
`ext` removed when it is a proper suffix. -/
def basenameExt (s ext : String) : String :=
  let base := lastPortion s
  if ext ≠ "" && base ≠ ext && ext.data.isSuffixOf base.data then
    String.mk (base.data.take (base.data.length - ext.data.length))
  else base

/-- `basename(name, extname(name))`, the "logical name" of a script file
(spec §3 ScriptSource). -/
def logicalName (s : String) : String :=
  basenameExt s (extname s)

/-! ## Data model -/

/-- Kind of a directory entry (`Dirent.isFile()` / `Dirent.isDirectory()`;
anything else — symlinks etc. — is `other`). -/
inductive EntKind where
  | file
  | directory
  | other
deriving DecidableEq

/-- One entry of a directory listing, together with the data the engine
may ask the filesystem for: its content (meaningful for files read by
the engine) and its modification time (used by `syncMacros`; modelled
as a `Nat`, only its order matters). -/
structure FsEntry where
  name : String
  kind : EntKind
  content : String
  mtime : Nat
deriving DecidableEq

/-- The filesystem as `push` sees it: the listing of the source root,
the listing of each subdirectory of the source root, and the listing of
the hackmud directory root (consulted for `.key` identity markers). -/
structure PushInput where
  topEntries : List FsEntry
  dirListing : String → List FsEntry
  hmEntries : List FsEntry

/-- The two failure modes the engine records per file: a rejected
`processScript` promise, and the `new Error("processed script was
empty")` raised on empty transformer output. -/
inductive PushErr where
  | transformFailed
  | emptyOutput
deriving DecidableEq

/-- The `Info` record of `src/index.ts` (spec §3 SyncResult):
`{ file, users, minLength, error }`. -/
structure Info where
  file : String
  users : List String
  minLength : Nat
  error : Option PushErr
deriving DecidableEq

/-- One deployment write: `writeFilePersist(<hackmudDir>/<user>/scripts/<script>.js, content)`. -/
structure Write where
  user : String
  script : String
  content : String
deriving DecidableEq

/-- `const supportedExtensions = [ ".js", ".ts" ]`. -/
def supportedExtensions : List String := [".js", ".ts"]

/-- `hackmudLength`: `script.replace(/[ \n\r]/g, "").length`. -/
def hackmudLength (script : String) : Nat :=
  (script.data.filter (fun c => !(c == ' ' || c == '\n' || c == '\r'))).length

/-! ## Push orchestrator -/

/-- The check of `src/index.ts:40`: a top-level entry is processed as a
user directory when it is a directory and passes the user filter
(`!users.length || users.includes(user)`). -/
def dirPassesUserFilter (users : List String) (e : FsEntry) : Bool :=
  e.kind == EntKind.directory && (users.isEmpty || users.contains e.name)

/-- The check of `src/index.ts:46`: a file inside a user directory is
processed when its extension is supported, it is a file, and its
logical name passes the script filter. -/
def eligiblePrivate (scripts : List String) (f : FsEntry) : Bool :=
  supportedExtensions.contains (extname f.name) && f.kind == EntKind.file
    && (scripts.isEmpty || scripts.contains (logicalName f.name))

/-- The check of `src/index.ts:91-97`: a top-level entry is a global
script candidate when it is a file with a supported extension whose
logical name passes the script filter. -/
def globalEligible (scripts : List String) (e : FsEntry) : Bool :=
  e.kind == EntKind.file && supportedExtensions.contains (extname e.name)
    && (scripts.isEmpty || scripts.contains (logicalName e.name))

/-- The user directories `push` iterates over. -/
def filteredDirs (inp : PushInput) (users : List String) : List FsEntry :=
  inp.topEntries.filter (dirPassesUserFilter users)

/-- The SkipMap (`const skips = new Map<string, string[]>()`), flattened
to registration order: the code only ever appends one user per
discovered override (`src/index.ts:47-52`) and tests membership of
`skips.get(name)`, and `skipsGet` below returns exactly the array the
`Map` would hold for a name, so this flat representation is
observationally identical to the source's `Map<string, string[]>`. -/
def buildSkips (inp : PushInput) (users scripts : List String) : List (String × String) :=
  (filteredDirs inp users).flatMap (fun d =>
    ((inp.dirListing d.name).filter (eligiblePrivate scripts)).map
      (fun f => (logicalName f.name, d.name)))

/-- `skips.get(name) || []`: the users registered for a logical name, in
registration order. -/
def skipsGet (sk : List (String × String)) (n : String) : List String :=
  (sk.filter (fun e => e.1 == n)).map (fun e => e.2)

/-- The `.key` identity-marker scan of `src/index.ts:82-85`: files at
the hackmud root whose extension is `.key`, mapped to their basename. -/
def keyUsers (entries : List FsEntry) : List String :=
  (entries.filter (fun a => a.kind == EntKind.file && extname a.name == ".key")).map
    (fun a => basenameExt a.name ".key")

/-- The effective user set (spec §4.2 step 3): the user filter when
non-empty, otherwise the `.key` users of the hackmud root. -/
def effectiveUsers (inp : PushInput) (users : List String) : List String :=
  if users.isEmpty then keyUsers inp.hmEntries else users

/-- Per-private-script processing (`src/index.ts:54-75`), as a function
of the transformer outcome on the file's content: the produced `Info`
and the deployment writes (one write to the owning user on success with
non-empty output, none otherwise). -/
def privateResult (user fname : String) (outcome : Option String) : Info × List Write :=
  let name := logicalName fname
  match outcome with
  | none =>
      ({ file := user ++ "/" ++ fname, users := [user], minLength := 0,
         error := some PushErr.transformFailed }, [])
  | some minCode =>
      if minCode = "" then
        ({ file := user ++ "/" ++ fname, users := [user], minLength := 0,
           error := some PushErr.emptyOutput }, [])
      else
        ({ file := user ++ "/" ++ fname, users := [user],
           minLength := hackmudLength minCode, error := none },
         [{ user := user, script := name, content := minCode }])

/-- Per-global-script processing (`src/index.ts:98-127`), as a function
of the transformer outcome: on success with non-empty output, every
effective user not in the name's skip list is appended to `info.users`
and receives a write; otherwise no write and an error. -/
def globalResult (usersEff skip : List String) (fname : String) (outcome : Option String) :
    Info × List Write :=
  let name := logicalName fname
  match outcome with
  | none =>
      ({ file := fname, users := [], minLength := 0,
         error := some PushErr.transformFailed }, [])
  | some minCode =>
      if minCode = "" then
        ({ file := fname, users := [], minLength := 0,
           error := some PushErr.emptyOutput }, [])
      else
        let targets := usersEff.filter (fun u => !(skip.contains u))
        ({ file := fname, users := targets, minLength := hackmudLength minCode,
           error := none },
         targets.map (fun u => { user := u, script := name, content := minCode }))

/-- All private-script results of a push, in scan order. -/
def privatePart (inp : PushInput) (T : String → Option String) (users scripts : List String) :
    List (Info × List Write) :=
  (filteredDirs inp users).flatMap (fun d =>
    ((inp.dirListing d.name).filter (eligiblePrivate scripts)).map
      (fun f => privateResult d.name f.name (T f.content)))

/-- All global-script results of a push: the complete SkipMap is built
before any global deployment decision (the `Promise.all(promises)`
barrier of `src/index.ts:87` — every `readDir` callback registers its
skips synchronously before that barrier resolves). -/
def globalPart (inp : PushInput) (T : String → Option String) (users scripts : List String) :
    List (Info × List Write) :=
  (inp.topEntries.filter (globalEligible scripts)).map (fun g =>
    globalResult (effectiveUsers inp users)
      (skipsGet (buildSkips inp users scripts) (logicalName g.name))
      g.name (T g.content))

/-- The whole of `push`: the `Info` records accumulated into `infoAll`
and the multiset of deployment writes issued.  The real code interleaves
results nondeterministically; the claims below only concern per-file
records and the write set, both of which are order-independent, so the
model fixes the deterministic private-then-global scan order. -/
def pushModel (inp : PushInput) (T : String → Option String) (users scripts : List String) :
    List Info × List Write :=
  let results := privatePart inp T users scripts ++ globalPart inp T users scripts
  (results.map (fun r => r.1), results.flatMap (fun r => r.2))

/-- A user holds a private override for logical name `n` when some
top-level directory entry with that user's name contains a supported-
extension file whose logical name is `n` (spec §3 SkipMap / glossary
"Private script / override"). -/
def holdsOverride (inp : PushInput) (n u : String) : Bool :=
  inp.topEntries.any (fun e => e.kind == EntKind.directory && e.name == u &&
    ((inp.dirListing e.name).any (fun f =>
      supportedExtensions.contains (extname f.name) && f.kind == EntKind.file
        && logicalName f.name == n)))

/-! ## Promise structure of `push` (for the settlement claim)

`push` returns `new Promise(resolve)` and calls `resolve(infoAll)` after
`Promise.all` of the second `promises` array (`src/index.ts:133`).
Which asynchronous operations that resolution transitively awaits is a
static property of the code's promise graph; `Prom` below is that graph.
`detach p q` is `p.then(cb)` where `cb` starts `q` without awaiting or
returning it (fire-and-forget), so `q` is not part of the settlement of
the `.then` promise; `andThen p q` is `p.then(cb)` where `cb` awaits
`q`. -/

/-- A promise-graph node; `op (some w)` is the `writeFilePersist` call
for `w`, `op none` any other asynchronous step (readDir, readFile, the
transformer). -/
inductive Prom where
  | op : Option Write → Prom
  | andThen : Prom → Prom → Prom
  | detach : Prom → Prom → Prom
  | par : Prom → Prom → Prom
  | done : Prom

/-- `Promise.all` of a list of promise graphs. -/
def joinAll (ps : List Prom) : Prom :=
  ps.foldr Prom.par Prom.done

/-- The writes whose settlement the settlement of this promise awaits. -/
def awaitedWrites : Prom → List Write
  | Prom.op none => []
  | Prom.op (some w) => [w]
  | Prom.andThen p q => awaitedWrites p ++ awaitedWrites q
  | Prom.detach p _ => awaitedWrites p
  | Prom.par p q => awaitedWrites p ++ awaitedWrites q
  | Prom.done => []

/-- Every write scheduled anywhere in this promise graph, whether
awaited or fired-and-forgotten. -/
def allWrites : Prom → List Write
  | Prom.op none => []
  | Prom.op (some w) => [w]
  | Prom.andThen p q => allWrites p ++ allWrites q
  | Prom.detach p q => allWrites p ++ allWrites q
  | Prom.par p q => allWrites p ++ allWrites q
  | Prom.done => []

/-- The private chain of `src/index.ts:54-75`:
`readFile(...).then(async code => { const minCode = await
processScript(...); ...; await writeFilePersist(...) })`.  The
callback awaits the transformer and then the write (when one is
issued). -/
def privChainProm (user fname : String) (outcome : Option String) : Prom :=
  Prom.andThen (Prom.op none)
    (Prom.andThen (Prom.op none)
      (joinAll (((privateResult user fname outcome).2).map (fun w => Prom.op (some w)))))

/-- The per-user-directory promise pushed into the first `promises`
array (`src/index.ts:41-78`): `readDir(...).then(files => ...)` whose
callback registers skips synchronously and starts each `readFile`
chain without awaiting it. -/
def dirScanProm (inp : PushInput) (T : String → Option String) (scripts : List String)
    (d : FsEntry) : Prom :=
  Prom.detach (Prom.op none)
    (joinAll (((inp.dirListing d.name).filter (eligiblePrivate scripts)).map
      (fun f => privChainProm d.name f.name (T f.content))))

/-- The per-global-script promise pushed into the second `promises`
array (`src/index.ts:98-127`): `readFile(...).then(async code => ...)`
whose callback awaits the transformer, then starts the per-user
`writeFilePersist` promises (collecting them in an inner array that
only a fire-and-forget `Promise.all(...).then(onPush)` consumes). -/
def globChainProm (inp : PushInput) (T : String → Option String) (users scripts : List String)
    (g : FsEntry) : Prom :=
  Prom.andThen (Prom.op none)
    (Prom.detach (Prom.op none)
      (joinAll ((globalResult (effectiveUsers inp users)
          (skipsGet (buildSkips inp users scripts) (logicalName g.name))
          g.name (T g.content)).2.map (fun w => Prom.op (some w)))))

/-- The promise returned by `push`: it settles after the first
`Promise.all` barrier (the directory scans) and then the second
(the global read-and-transform chains), `src/index.ts:87,133`. -/
def pushProm (inp : PushInput) (T : String → Option String) (users scripts : List String) :
    Prom :=
  Prom.andThen
    (joinAll ((filteredDirs inp users).map (dirScanProm inp T scripts)))
    (joinAll ((inp.topEntries.filter (globalEligible scripts)).map
      (globChainProm inp T users scripts)))

/-! ## Watch orchestrator, depth-two (`case 2`) handler -/

/-- The `case 2` branch of `watch` (`src/index.ts:225-257`), as a pure
function of the changed path, its content, and the transformer outcome.
`none` means the event does not reach the handler body (unsupported
extension, wrong depth, or filtered out).  `const [ user ] = parts`
binds the owning user; the loop `for (const user of users)
info.users.push(user)` has no braces, so only `info.users.push` is in
the loop body and the single following `promises.push(writeFilePersist(...))`
runs once with the outer `user`. -/
def watchCase2 (users scripts : List String) (T : String → Option String)
    (path code : String) : Option (Info × List Write) :=
  let extension := extname path
  if supportedExtensions.contains extension then
    let name := basenameExt path extension
    let parts := jsSplit path '/'
    if parts.length = 2 then
      let user := parts.headD ""
      if (users.isEmpty || users.contains user)
          && (scripts.isEmpty || scripts.contains name) then
        some (match T code with
          | none =>
              ({ file := path, users := [user], minLength := 0,
                 error := some PushErr.transformFailed }, [])
          | some minCode =>
              if minCode = "" then
                ({ file := path, users := [user], minLength := 0,
                   error := some PushErr.emptyOutput }, [])
              else
                ({ file := path, users := [user] ++ users,
                   minLength := hackmudLength minCode, error := none },
                 [{ user := user, script := name, content := minCode }]))
      else none
    else none
  else none

/-! ## Macro merger (`syncMacros`) -/

/-- The indices the loop of `src/index.ts:290` visits: `for (let i = 0;
i < lines.length / 2 - 1; i++)`.  JavaScript evaluates the bound over
the rationals, and for natural `i` and `numLines`,
`i < numLines / 2 - 1` holds exactly when `2 * i + 2 < numLines`. -/
def macroPairIdx (numLines : Nat) : List Nat :=
  (List.range numLines).filter (fun i => 2 * i + 2 < numLines)

/-- The candidate records one `.macros` file contributes, over its
already-split lines: for each visited index `i`, the record
`(lines[2i], lines[2i+1])` stamped with the file's mtime. -/
def macroRecordsOfLines (lines : List String) (date : Nat) : List (String × String × Nat) :=
  (macroPairIdx lines.length).map
    (fun i => (lines.getD (2 * i) "", lines.getD (2 * i + 1) "", date))

/-- The candidate records of a `.macros` file's content
(`content.split("\n")` then the pair loop). -/
def macroRecords (content : String) (date : Nat) : List (String × String × Nat) :=
  macroRecordsOfLines (jsSplit content '\n') date

/-- Modelled from the spec (§4.4 step 1, §6 macro file format): the
content of a macro file, read as a flat sequence of lines grouped into
alternating `(name, body)` pairs — every index `i` with `2i + 1` still
a line yields the pair `(lines[2i], lines[2i+1])`.  Used only to
compare the code's record extraction against the spec's words. -/
def specPairsOfLines (lines : List String) : List (String × String) :=
  ((List.range lines.length).filter (fun i => 2 * i + 1 < lines.length)).map
    (fun i => (lines.getD (2 * i) "", lines.getD (2 * i + 1) ""))

/-- Modelled from the spec: `specPairsOfLines` applied to the split
content. -/
def specPairs (content : String) : List (String × String) :=
  specPairsOfLines (jsSplit content '\n')

/-- `macros.get(name)` on the association-list rendering of the
`Map<string, { macro, date }>` (first entry with the key; keys are kept
unique by `macrosSet`). -/
def macrosGet (m : List (String × String × Nat)) (n : String) : Option (String × Nat) :=
  (m.find? (fun e => e.1 == n)).map (fun e => e.2)

/-- `macros.set(name, v)`: replace in place when the key exists (a JS
`Map` keeps the key's original position), append otherwise. -/
def macrosSet (m : List (String × String × Nat)) (n : String) (v : String × Nat) :
    List (String × String × Nat) :=
  if m.any (fun e => e.1 == n) then
    m.map (fun e => if e.1 == n then (n, v) else e)
  else m ++ [(n, v)]

/-- The merge step of `src/index.ts:292-295`: `if (!curMacro || date >
curMacro.date) macros.set(macroName, { date, macro: ... })`. -/
def mergeStep (m : List (String × String × Nat)) (r : String × String × Nat) :
    List (String × String × Nat) :=
  match macrosGet m r.1 with
  | none => macrosSet m r.1 (r.2.1, r.2.2)
  | some cur => if r.2.2 > cur.2 then macrosSet m r.1 (r.2.1, r.2.2) else m

/-- Merging a whole scan-ordered list of candidate records. -/
def mergeMacros (recs : List (String × String × Nat)) : List (String × String × Nat) :=
  recs.foldl mergeStep []

/-- UTF-16-style lexicographic `<` on strings (JavaScript's `<`),
structurally on the scalar values — identical to the code-unit order on
the names occurring here. -/
def charListLt : List Char → List Char → Bool
  | [], [] => false
  | [], _ :: _ => true
  | _ :: _, [] => false
  | a :: as, b :: bs => if a = b then charListLt as bs else decide (a < b)

/-- Insert into a list sorted ascending by name (JS
`sort(([a], [b]) => (a > b) - (a < b))`; the map's keys are unique, so
any sort by the same order yields the same, unique, ascending
arrangement). -/
def insertByName (x : String × String × Nat) :
    List (String × String × Nat) → List (String × String × Nat)
  | [] => [x]
  | y :: ys => if charListLt y.1.data x.1.data then y :: insertByName x ys else x :: y :: ys

/-- `[...macros].sort(...)`: the merged map's entries in ascending name
order. -/
def sortByName (l : List (String × String × Nat)) : List (String × String × Nat) :=
  l.foldr insertByName []

/-- One step of the output loop of `src/index.ts:311-315`: `if
(macro[0] == macro[0].toLowerCase()) { macroFile += name\nmacro\n;
macrosSynced++ }`.  The test reads the first character of the **body**
(`macro`); on an empty body, `macro[0]` is `undefined` and
`.toLowerCase()` on it throws, modelled as `none`. -/
def appendMacroRecord (acc : Option (String × Nat)) (r : String × String × Nat) :
    Option (String × Nat) :=
  match acc with
  | none => none
  | some st =>
    match r.2.1.data with
    | [] => none
    | c :: _ =>
      if c == c.toLower then some (st.1 ++ r.1 ++ "\n" ++ r.2.1 ++ "\n", st.2 + 1)
      else some st

/-- The merged output text and `macrosSynced` count accumulated over
the sorted records. -/
def buildMergedOutput (recs : List (String × String × Nat)) : Option (String × Nat) :=
  recs.foldl appendMacroRecord (some ("", 0))

/-- Whether a string's first character equals its own lowercasing (the
naming test the spec describes; `true` on the empty string, which has
no first character). -/
def firstCharIsLower (s : String) : Bool :=
  match s.data with
  | [] => true
  | c :: _ => c == c.toLower

/-- Modelled from the spec's amended reading of the output loop: the
merged text keeps, in order, exactly the records whose **body** starts
with a character equal to its own lowercasing. -/
def mergedTextSpec : List (String × String × Nat) → String
  | [] => ""
  | r :: rs =>
    (if firstCharIsLower r.2.1 then r.1 ++ "\n" ++ r.2.1 ++ "\n" else "") ++ mergedTextSpec rs

/-- The candidate records a hackmud-root entry contributes to the merge
(`case ".macros"` of `src/index.ts:286-299`). -/
def entryRecords (e : FsEntry) : List (String × String × Nat) :=
  if e.kind == EntKind.file && extname e.name == ".macros" then
    macroRecords e.content e.mtime
  else []

/-- The users an entry contributes (`case ".key"` of
`src/index.ts:301-304`). -/
def entryUsers (e : FsEntry) : List String :=
  if e.kind == EntKind.file && extname e.name == ".key" then
    [basenameExt e.name ".key"]
  else []

/-- The outcome of `syncMacros`: the merged text written to every
registered user's `.macros` file, and the returned counters. -/
structure MacroSync where
  mergedText : String
  macrosSynced : Nat
  usersSynced : Nat
deriving DecidableEq

/-- The whole of `syncMacros` over the hackmud-root listing; `none`
models the `TypeError` thrown when a retained record's body is empty. -/
def syncMacrosModel (entries : List FsEntry) : Option MacroSync :=
  let macros := mergeMacros (entries.flatMap entryRecords)
  let users := entries.flatMap entryUsers
  match buildMergedOutput (sortByName macros) with
  | none => none
  | some st => some { mergedText := st.1, macrosSynced := st.2, usersSynced := users.length }

/-- Modelled from the spec (C7's wording): the last-write-wins fold on
one name's candidates — keep the incoming record only when its
timestamp is strictly greater than the current one's, so equal
timestamps retain the earlier-scanned record. -/
def lwwBest (cands : List (String × Nat)) : Option (String × Nat) :=
  cands.foldl
    (fun acc r =>
      match acc with
      | none => some r
      | some cur => if r.2 > cur.2 then some r else some cur)
    none

/-! ## Shared concrete inputs for witnesses and counterexamples -/

/-- A transformer: succeeds with `"G"` on the global source, `"P x"` on
the private source, rejects anything else. -/
def exT : String → Option String :=
  fun s => if s = "gcode" then some "G" else if s = "pcode" then some "P x" else none

/-- A transformer that rejects the private source `"pcode"` but accepts
the global source. -/
def exT2 : String → Option String :=
  fun s => if s = "gcode" then some "G" else none

/-- Source root with user directory `alice` (holding override `foo.js`)
and global `foo.js`; hackmud root with key files for `alice` and
`bob`. -/
def exInp : PushInput :=
  { topEntries := [⟨"alice", EntKind.directory, "", 0⟩, ⟨"foo.js", EntKind.file, "gcode", 0⟩]
    dirListing := fun d => if d = "alice" then [⟨"foo.js", EntKind.file, "pcode", 0⟩] else []
    hmEntries := [⟨"alice.key", EntKind.file, "", 0⟩, ⟨"bob.key", EntKind.file, "", 0⟩] }

/-- Hackmud root holding two macro files with equal timestamps, one
record each: `("Beta", "z")` and `("gamma", "w")`. -/
def exMac : List FsEntry :=
  [⟨"bob.macros", EntKind.file, "Beta\nz\n", 1⟩, ⟨"carol.macros", EntKind.file, "gamma\nw\n", 1⟩]

/-! ## Helper lemmas -/

theorem nonWS_pointwise (c : Char) :
    (!(c == ' ' || c == '\n' || c == '\r')) = decide (c ≠ ' ' ∧ c ≠ '\n' ∧ c ≠ '\r') := by
  by_cases h1 : c = ' ' <;> by_cases h2 : c = '\n' <;> by_cases h3 : c = '\r' <;>
    simp [h1, h2, h3]

/-! ## Claim C6 -/

/-- C6: for every private script `<user>/<name>.<ext>` whose owner
passes the user filter and whose logical name passes the script filter,
`push` writes the transformed output (when transformation succeeds with
non-empty output) to exactly one deployment path, that of the owning
user, regardless of which other users appear in the user filter, and
the `SyncResult`'s target list contains exactly that one owning
user. -/
theorem push_private_deploys_to_owner_only
    (inp : PushInput) (T : String → Option String) (users scripts : List String)
    (e f : FsEntry) (m : String)
    (he : e ∈ inp.topEntries) (hk : e.kind = EntKind.directory)
    (hu : users = [] ∨ e.name ∈ users)
    (hf : f ∈ inp.dirListing e.name) (hel : eligiblePrivate scripts f = true)
    (hT : T f.content = some m) (hm : m ≠ "") :
    privateResult e.name f.name (T f.content) ∈ privatePart inp T users scripts ∧
    (privateResult e.name f.name (T f.content)).1.users = [e.name] ∧
    (privateResult e.name f.name (T f.content)).2 =
      [{ user := e.name, script := logicalName f.name, content := m }] := by
  refine ⟨?_, ?_, ?_⟩
  · unfold privatePart
    refine List.mem_flatMap.mpr ⟨e, ?_, ?_⟩
    · refine List.mem_filter.mpr ⟨he, ?_⟩
      unfold dirPassesUserFilter
      rcases hu with h | h
      · simp [h, hk]
      · simp [hk, h]
    · exact List.mem_map.mpr ⟨f, List.mem_filter.mpr ⟨hf, hel⟩, rfl⟩
  · rw [hT]; simp [privateResult, hm]
  · rw [hT]; simp [privateResult, hm]

theorem push_private_deploys_to_owner_only_witness :
    privateResult "alice" "foo.js" (exT "pcode") ∈ privatePart exInp exT ["alice", "bob"] [] ∧
    (privateResult "alice" "foo.js" (exT "pcode")).1.users = ["alice"] ∧
    (privateResult "alice" "foo.js" (exT "pcode")).2 =
      [{ user := "alice", script := "foo", content := "P x" }] := by
  have h := push_private_deploys_to_owner_only exInp exT ["alice", "bob"] []
    ⟨"alice", EntKind.directory, "", 0⟩ ⟨"foo.js", EntKind.file, "pcode", 0⟩ "P x"
    (by decide) rfl (by decide) (by decide) (by decide) (by decide) (by decide)
  exact h

/-! ## Claim C8 -/

/-- C8: in `push`, a transformer rejection and an empty transformed
output are handled identically for each file: in both cases that file's
`SyncResult` carries a non-null error, no deployment write is performed
for that file, its minified length stays 0, and the processing of all
sibling files and the overall batch continues unaffected (every
eligible file still contributes its record, whatever the transformer
does). -/
theorem push_failure_modes_equivalent
    (inp : PushInput) (T : String → Option String) (users scripts : List String)
    (user fname : String) (usersEff skip : List String) (outcome : Option String)
    (hfail : outcome = none ∨ outcome = some "") :
    ((privateResult user fname outcome).1.error.isSome = true ∧
     (privateResult user fname outcome).1.minLength = 0 ∧
     (privateResult user fname outcome).2 = []) ∧
    ((globalResult usersEff skip fname outcome).1.error.isSome = true ∧
     (globalResult usersEff skip fname outcome).1.minLength = 0 ∧
     (globalResult usersEff skip fname outcome).2 = []) ∧
    (pushModel inp T users scripts).1.length =
      ((filteredDirs inp users).map
        (fun d => ((inp.dirListing d.name).filter (eligiblePrivate scripts)).length)).sum
      + (inp.topEntries.filter (globalEligible scripts)).length := by
  refine ⟨?_, ?_, ?_⟩
  · rcases hfail with h | h <;> subst h <;> simp [privateResult]
  · rcases hfail with h | h <;> subst h <;> simp [globalResult]
  · simp [pushModel, privatePart, globalPart, List.length_flatMap, Function.comp_def]

theorem push_failure_modes_equivalent_witness :
    ((privateResult "alice" "foo.js" none).1.error.isSome = true ∧
     (privateResult "alice" "foo.js" none).1.minLength = 0 ∧
     (privateResult "alice" "foo.js" none).2 = []) ∧
    ((globalResult ["alice", "bob"] [] "foo.js" none).1.error.isSome = true ∧
     (globalResult ["alice", "bob"] [] "foo.js" none).1.minLength = 0 ∧
     (globalResult ["alice", "bob"] [] "foo.js" none).2 = []) ∧
    (pushModel exInp exT2 [] []).1.length =
      ((filteredDirs exInp []).map
        (fun d => ((exInp.dirListing d.name).filter (eligiblePrivate [])).length)).sum
      + (exInp.topEntries.filter (globalEligible [])).length :=
  push_failure_modes_equivalent exInp exT2 [] [] "alice" "foo.js" ["alice", "bob"] [] none
    (Or.inl rfl)

/-! ## Claim C10 -/

/-- C10: for every script that transforms successfully to non-empty
output, the `minLength` field reported in its `SyncResult` equals the
number of characters of the transformed text after removing every
space, newline, and carriage-return character — while the raw,
unstripped transformed text is what the deployment writes carry. -/
theorem push_minLength_counts_stripped_chars
    (user fname : String) (usersEff skip : List String) (m : String)
    (outcome : Option String) (hT : outcome = some m) (hm : m ≠ "") :
    (privateResult user fname outcome).1.minLength =
      (m.data.filter (fun c => decide (c ≠ ' ' ∧ c ≠ '\n' ∧ c ≠ '\r'))).length ∧
    (privateResult user fname outcome).2.map (fun w => w.content) = [m] ∧
    (globalResult usersEff skip fname outcome).1.minLength =
      (m.data.filter (fun c => decide (c ≠ ' ' ∧ c ≠ '\n' ∧ c ≠ '\r'))).length ∧
    (globalResult usersEff skip fname outcome).2 =
      (usersEff.filter (fun u => !(skip.contains u))).map
        (fun u => { user := u, script := logicalName fname, content := m }) := by
  subst hT
  have hfilters : m.data.filter (fun c => !(c == ' ' || c == '\n' || c == '\r')) =
      m.data.filter (fun c => decide (c ≠ ' ' ∧ c ≠ '\n' ∧ c ≠ '\r')) :=
    List.filter_congr (fun c _ => nonWS_pointwise c)
  refine ⟨?_, ?_, ?_, ?_⟩
  · have h1 : (privateResult user fname (some m)).1.minLength = hackmudLength m := by
      simp [privateResult, hm]
    rw [h1]
    unfold hackmudLength
    exact congrArg List.length hfilters
  · simp [privateResult, hm]
  · have h1 : (globalResult usersEff skip fname (some m)).1.minLength = hackmudLength m := by
      simp [globalResult, hm]
    rw [h1]
    unfold hackmudLength
    exact congrArg List.length hfilters
  · simp [globalResult, hm]

theorem push_minLength_counts_stripped_chars_witness :
    (privateResult "alice" "foo.js" (some "P x")).1.minLength =
      ("P x".data.filter (fun c => decide (c ≠ ' ' ∧ c ≠ '\n' ∧ c ≠ '\r'))).length ∧
    (privateResult "alice" "foo.js" (some "P x")).2.map (fun w => w.content) = ["P x"] ∧
    (globalResult ["alice", "bob"] ["alice"] "foo.js" (some "P x")).1.minLength =
      ("P x".data.filter (fun c => decide (c ≠ ' ' ∧ c ≠ '\n' ∧ c ≠ '\r'))).length ∧
    (globalResult ["alice", "bob"] ["alice"] "foo.js" (some "P x")).2 =
      ((["alice", "bob"]).filter (fun u => !((["alice"] : List String).contains u))).map
        (fun u => { user := u, script := "foo", content := "P x" }) := by
  have h := push_minLength_counts_stripped_chars "alice" "foo.js" ["alice", "bob"] ["alice"]
    "P x" (some "P x") rfl (by decide)
  exact h

/-! ## SkipMap membership -/

theorem bool_eq_of_iff {a b : Bool} (h : a = true ↔ b = true) : a = b := by
  cases a <;> cases b <;> simp_all

theorem dirPassesUserFilter_iff (users : List String) (e : FsEntry) :
    dirPassesUserFilter users e = true ↔
      e.kind = EntKind.directory ∧ (users = [] ∨ e.name ∈ users) := by
  unfold dirPassesUserFilter
  simp [List.isEmpty_iff]

theorem eligiblePrivate_iff (scripts : List String) (f : FsEntry) :
    eligiblePrivate scripts f = true ↔
      extname f.name ∈ supportedExtensions ∧ f.kind = EntKind.file ∧
        (scripts = [] ∨ logicalName f.name ∈ scripts) := by
  unfold eligiblePrivate
  simp [List.isEmpty_iff, and_assoc]

theorem holdsOverride_iff (inp : PushInput) (n u : String) :
    holdsOverride inp n u = true ↔
      ∃ e ∈ inp.topEntries, e.kind = EntKind.directory ∧ e.name = u ∧
        ∃ f ∈ inp.dirListing e.name, extname f.name ∈ supportedExtensions ∧
          f.kind = EntKind.file ∧ logicalName f.name = n := by
  unfold holdsOverride
  simp [List.any_eq_true, and_assoc]

theorem mem_skipsGet_buildSkips (inp : PushInput) (users scripts : List String) (n u : String) :
    u ∈ skipsGet (buildSkips inp users scripts) n ↔
      ∃ d ∈ inp.topEntries, dirPassesUserFilter users d = true ∧ d.name = u ∧
        ∃ f ∈ inp.dirListing d.name, eligiblePrivate scripts f = true ∧
          logicalName f.name = n := by
  unfold skipsGet buildSkips filteredDirs
  constructor
  · intro h
    obtain ⟨p, hp, hpu⟩ := List.mem_map.mp h
    obtain ⟨hpsk, hpn⟩ := List.mem_filter.mp hp
    obtain ⟨d, hd, hpd⟩ := List.mem_flatMap.mp hpsk
    obtain ⟨hdmem, hdpass⟩ := List.mem_filter.mp hd
    obtain ⟨f, hf, hpf⟩ := List.mem_map.mp hpd
    obtain ⟨hfmem, hfel⟩ := List.mem_filter.mp hf
    have hp1 : p.1 = n := by simpa using hpn
    refine ⟨d, hdmem, hdpass, ?_, f, hfmem, hfel, ?_⟩
    · rw [← hpu, ← hpf]
    · rw [← hp1, ← hpf]
  · rintro ⟨d, hdmem, hdpass, hdu, f, hfmem, hfel, hfn⟩
    refine List.mem_map.mpr ⟨(n, u), ?_, rfl⟩
    refine List.mem_filter.mpr ⟨?_, by simp⟩
    refine List.mem_flatMap.mpr ⟨d, List.mem_filter.mpr ⟨hdmem, hdpass⟩, ?_⟩
    refine List.mem_map.mpr ⟨f, List.mem_filter.mpr ⟨hfmem, hfel⟩, ?_⟩
    rw [hfn, hdu]

/-- For a user that passes the user filter and a name that passes the
script filter, membership in the SkipMap entry built by `push`
coincides with holding a private override. -/
theorem skip_contains_eq_holdsOverride (inp : PushInput) (users scripts : List String)
    (n u : String) (hu : users = [] ∨ u ∈ users) (hn : scripts = [] ∨ n ∈ scripts) :
    (skipsGet (buildSkips inp users scripts) n).contains u = holdsOverride inp n u := by
  apply bool_eq_of_iff
  have hc : (skipsGet (buildSkips inp users scripts) n).contains u = true ↔
      u ∈ skipsGet (buildSkips inp users scripts) n := by simp
  rw [hc, mem_skipsGet_buildSkips, holdsOverride_iff]
  constructor
  · rintro ⟨d, hdmem, hdpass, hdu, f, hfmem, hfel, hfn⟩
    obtain ⟨hk, _⟩ := (dirPassesUserFilter_iff users d).mp hdpass
    obtain ⟨hext, hkind, _⟩ := (eligiblePrivate_iff scripts f).mp hfel
    exact ⟨d, hdmem, hk, hdu, f, hfmem, hext, hkind, hfn⟩
  · rintro ⟨e, hemem, hk, heu, f, hfmem, hext, hkind, hfn⟩
    refine ⟨e, hemem, ?_, heu, f, hfmem, ?_, hfn⟩
    · exact (dirPassesUserFilter_iff users e).mpr ⟨hk, by rw [heu]; exact hu⟩
    · exact (eligiblePrivate_iff scripts f).mpr ⟨hext, hkind, by rw [hfn]; exact hn⟩

/-- A member of the effective user set passes the user filter. -/
theorem mem_effectiveUsers_passes (inp : PushInput) (users : List String) (u : String)
    (humem : u ∈ effectiveUsers inp users) : users = [] ∨ u ∈ users := by
  unfold effectiveUsers at humem
  by_cases h : users.isEmpty
  · exact Or.inl (List.isEmpty_iff.mp h)
  · right
    simpa [h] using humem

/-! ## Claim C1 -/

/-- C1: for every push call and every global (root-level,
supported-extension) script with logical name `n` that passes the
script filter and transforms successfully to non-empty output, the set
of users whose deployment path `<hackmudDir>/<user>/scripts/<n>.js` is
written by the global deployment equals the effective user set (the
user filter when non-empty, otherwise the `.key` users of the hackmud
root) minus the users holding a private override for `n`; in
particular no global script is ever written to a user with a private
override of the same logical name. -/
theorem push_global_deploys_to_effective_minus_overrides
    (inp : PushInput) (T : String → Option String) (users scripts : List String)
    (g : FsEntry) (m : String)
    (hg : g ∈ inp.topEntries) (hkind : g.kind = EntKind.file)
    (hext : extname g.name ∈ supportedExtensions)
    (hname : scripts = [] ∨ logicalName g.name ∈ scripts)
    (hT : T g.content = some m) (hm : m ≠ "") :
    globalResult (effectiveUsers inp users)
        (skipsGet (buildSkips inp users scripts) (logicalName g.name)) g.name (T g.content)
      ∈ globalPart inp T users scripts ∧
    (globalResult (effectiveUsers inp users)
        (skipsGet (buildSkips inp users scripts) (logicalName g.name)) g.name
        (T g.content)).1.users =
      (effectiveUsers inp users).filter
        (fun u => !(holdsOverride inp (logicalName g.name) u)) ∧
    (globalResult (effectiveUsers inp users)
        (skipsGet (buildSkips inp users scripts) (logicalName g.name)) g.name
        (T g.content)).2.map (fun w => w.user) =
      (effectiveUsers inp users).filter
        (fun u => !(holdsOverride inp (logicalName g.name) u)) := by
  have hfilter : (effectiveUsers inp users).filter
      (fun u => !((skipsGet (buildSkips inp users scripts) (logicalName g.name)).contains u)) =
      (effectiveUsers inp users).filter
        (fun u => !(holdsOverride inp (logicalName g.name) u)) := by
    apply List.filter_congr
    intro u humem
    rw [skip_contains_eq_holdsOverride inp users scripts (logicalName g.name) u
      (mem_effectiveUsers_passes inp users u humem) hname]
  refine ⟨?_, ?_, ?_⟩
  · unfold globalPart
    refine List.mem_map.mpr ⟨g, ?_, rfl⟩
    refine List.mem_filter.mpr ⟨hg, ?_⟩
    unfold globalEligible
    rcases hname with h | h
    · simp [h, hkind, hext]
    · simp [hkind, hext, h]
  · rw [hT]
    simp only [globalResult]
    rw [if_neg hm]
    exact hfilter
  · rw [hT]
    simp only [globalResult]
    rw [if_neg hm]
    simp only [List.map_map]
    have : ((fun w => w.user) ∘ fun u =>
        ({ user := u, script := logicalName g.name, content := m } : Write)) = id := rfl
    rw [this, List.map_id]
    exact hfilter

theorem push_global_deploys_to_effective_minus_overrides_witness :
    globalResult (effectiveUsers exInp [])
        (skipsGet (buildSkips exInp [] []) (logicalName "foo.js")) "foo.js" (exT "gcode")
      ∈ globalPart exInp exT [] [] ∧
    (globalResult (effectiveUsers exInp [])
        (skipsGet (buildSkips exInp [] []) (logicalName "foo.js")) "foo.js"
        (exT "gcode")).1.users =
      (effectiveUsers exInp []).filter
        (fun u => !(holdsOverride exInp (logicalName "foo.js") u)) ∧
    (globalResult (effectiveUsers exInp [])
        (skipsGet (buildSkips exInp [] []) (logicalName "foo.js")) "foo.js"
        (exT "gcode")).2.map (fun w => w.user) =
      (effectiveUsers exInp []).filter
        (fun u => !(holdsOverride exInp (logicalName "foo.js") u)) := by
  have h := push_global_deploys_to_effective_minus_overrides exInp exT [] []
    ⟨"foo.js", EntKind.file, "gcode", 0⟩ "G"
    (by decide) rfl (by decide) (Or.inl rfl) (by decide) (by decide)
  exact h

/-! ## Claim C9 -/

/-- C9: a user holding a private override for logical name `n` is
excluded from the global deployment of `n` even when that user's
override fails to transform or transforms to empty output: the SkipMap
entry is registered upon discovery of the override file, before and
independently of the transformation outcome, so such a user receives
neither the private nor the global variant in that push. -/
theorem push_override_skip_independent_of_transform
    (inp : PushInput) (T : String → Option String) (users scripts : List String)
    (u n : String) (e f : FsEntry)
    (he : e ∈ inp.topEntries) (hk : e.kind = EntKind.directory) (hen : e.name = u)
    (hu : users = [] ∨ u ∈ users)
    (hf : f ∈ inp.dirListing u) (hel : eligiblePrivate scripts f = true)
    (hfn : logicalName f.name = n)
    (hfail : ∀ f' ∈ inp.dirListing u, eligiblePrivate scripts f' = true →
      logicalName f'.name = n → T f'.content = none ∨ T f'.content = some "") :
    ((pushModel inp T users scripts).2.all
      (fun w => !(w.user == u && w.script == n))) = true := by
  rw [List.all_eq_true]
  intro w hw
  suffices hsuff : ¬(w.user = u ∧ w.script = n) by
    rcases not_and_or.mp hsuff with h | h <;> simp [h]
  rintro ⟨hwu, hws⟩
  simp only [pushModel] at hw
  obtain ⟨r, hr, hwr⟩ := List.mem_flatMap.mp hw
  rcases List.mem_append.mp hr with hpriv | hglob
  · -- a private write with user u and script n comes from one of u's
    -- override files, all of which fail by hypothesis
    obtain ⟨d, hd, hrd⟩ := List.mem_flatMap.mp hpriv
    obtain ⟨f', hf', hrf⟩ := List.mem_map.mp hrd
    obtain ⟨hfmem', hfel'⟩ := List.mem_filter.mp hf'
    rcases hTc : T f'.content with _ | mc
    · rw [← hrf, hTc] at hwr
      simp [privateResult] at hwr
    · by_cases hmc : mc = ""
      · rw [← hrf, hTc, hmc] at hwr
        simp [privateResult] at hwr
      · rw [← hrf, hTc] at hwr
        simp only [privateResult] at hwr
        rw [if_neg hmc] at hwr
        have hwval : w = { user := d.name, script := logicalName f'.name, content := mc } := by
          simpa using hwr
        have hdu : d.name = u := by rw [← hwu, hwval]
        have hfn' : logicalName f'.name = n := by rw [← hws, hwval]
        have := hfail f' (by rw [← hdu]; exact hfmem') hfel' hfn'
        rcases this with h | h <;> rw [hTc] at h <;> simp_all
  · -- a global write for n never targets u, because u is in the
    -- SkipMap entry for n
    obtain ⟨g, hgmem, hrg⟩ := List.mem_map.mp hglob
    obtain ⟨hgtop, hgel⟩ := List.mem_filter.mp hgmem
    rcases hTg : T g.content with _ | mg
    · rw [← hrg, hTg] at hwr
      simp [globalResult] at hwr
    · by_cases hmg : mg = ""
      · rw [← hrg, hTg, hmg] at hwr
        simp [globalResult] at hwr
      · rw [← hrg, hTg] at hwr
        simp only [globalResult] at hwr
        rw [if_neg hmg] at hwr
        obtain ⟨u', hu', hwu'⟩ := List.mem_map.mp hwr
        obtain ⟨hu'eff, hu'skip⟩ := List.mem_filter.mp hu'
        have hu'u : u' = u := by rw [← hwu, ← hwu']
        have hgname : logicalName g.name = n := by rw [← hws, ← hwu']
        -- the script filter passes n (from the override's eligibility)
        have hn : scripts = [] ∨ n ∈ scripts := by
          obtain ⟨_, _, hsc⟩ := (eligiblePrivate_iff scripts f).mp hel
          rw [← hfn]
          exact hsc
        have hov : holdsOverride inp n u = true := by
          rw [holdsOverride_iff]
          obtain ⟨hext', hkind', _⟩ := (eligiblePrivate_iff scripts f).mp hel
          exact ⟨e, he, hk, hen, f, by rw [hen]; exact hf, hext', hkind', hfn⟩
        have hcon := skip_contains_eq_holdsOverride inp users scripts n u hu hn
        rw [hgname, hu'u] at hu'skip
        rw [hcon, hov] at hu'skip
        simp at hu'skip

theorem push_override_skip_independent_of_transform_witness :
    ((pushModel exInp exT2 [] []).2.all
      (fun w => !(w.user == "alice" && w.script == "foo"))) = true :=
  push_override_skip_independent_of_transform exInp exT2 [] [] "alice" "foo"
    ⟨"alice", EntKind.directory, "", 0⟩ ⟨"foo.js", EntKind.file, "pcode", 0⟩
    (by decide) rfl rfl (Or.inl rfl) (by decide) (by decide) (by decide) (by decide)

/-! ## Macro-map lemmas -/

theorem macrosGet_replace_ne (m : List (String × String × Nat)) (k n : String)
    (v : String × Nat) (hne : k ≠ n) :
    macrosGet (m.map (fun e => if e.1 == k then (k, v) else e)) n = macrosGet m n := by
  induction m with
  | nil => rfl
  | cons e es ih =>
    by_cases h : e.1 = k <;> by_cases h2 : e.1 = n <;>
      simp_all [macrosGet, List.find?_cons]

theorem macrosGet_replace_eq (m : List (String × String × Nat)) (k : String)
    (v : String × Nat) (hmem : m.any (fun e => e.1 == k) = true) :
    macrosGet (m.map (fun e => if e.1 == k then (k, v) else e)) k = some v := by
  induction m with
  | nil => simp at hmem
  | cons e es ih =>
    by_cases h : e.1 = k
    · simp [macrosGet, List.find?_cons, h]
    · have hes : es.any (fun e => e.1 == k) = true := by simp_all
      simpa [macrosGet, List.find?_cons, h] using ih hes

theorem macrosGet_macrosSet (m : List (String × String × Nat)) (k n : String)
    (v : String × Nat) :
    macrosGet (macrosSet m k v) n = if k = n then some v else macrosGet m n := by
  unfold macrosSet
  cases hmem : m.any (fun e => e.1 == k) with
  | true =>
    rw [if_pos rfl]
    by_cases hkn : k = n
    · subst hkn
      rw [if_pos rfl]
      exact macrosGet_replace_eq m k v hmem
    · rw [if_neg hkn]
      exact macrosGet_replace_ne m k n v hkn
  | false =>
    rw [if_neg (by simp)]
    have hnone : m.find? (fun e => e.1 == k) = none := by
      rw [List.find?_eq_none]
      intro x hx
      have := List.any_eq_false.mp hmem x hx
      simpa using this
    by_cases hkn : k = n
    · subst hkn
      rw [if_pos rfl]
      unfold macrosGet
      rw [List.find?_append, hnone]
      simp
    · rw [if_neg hkn]
      unfold macrosGet
      rw [List.find?_append]
      have hsing : ([(k, v)].find? (fun e => e.1 == n)) = none := by
        simp [List.find?_cons, hkn]
      rw [hsing]
      simp

theorem macrosGet_mergeStep (m : List (String × String × Nat)) (r : String × String × Nat)
    (n : String) :
    macrosGet (mergeStep m r) n =
      if r.1 = n then
        match macrosGet m n with
        | none => some (r.2.1, r.2.2)
        | some cur => if r.2.2 > cur.2 then some (r.2.1, r.2.2) else some cur
      else macrosGet m n := by
  unfold mergeStep
  by_cases hrn : r.1 = n
  · subst hrn
    cases hcur : macrosGet m r.1 with
    | none => simp [macrosGet_macrosSet, hcur]
    | some cur =>
      by_cases hgt : r.2.2 > cur.2
      · simp [hcur, hgt, macrosGet_macrosSet]
      · simp [hcur, hgt]
  · cases hcur : macrosGet m r.1 with
    | none => simp [macrosGet_macrosSet, hrn, hcur]
    | some cur =>
      by_cases hgt : r.2.2 > cur.2 <;> simp [hcur, hgt, macrosGet_macrosSet, hrn]

theorem macrosGet_foldl_mergeStep (recs : List (String × String × Nat))
    (m : List (String × String × Nat)) (n : String) :
    macrosGet (recs.foldl mergeStep m) n =
      ((recs.filter (fun r => r.1 == n)).map (fun r => r.2)).foldl
        (fun acc r =>
          match acc with
          | none => some r
          | some cur => if r.2 > cur.2 then some r else some cur)
        (macrosGet m n) := by
  induction recs generalizing m with
  | nil => rfl
  | cons r rs ih =>
    rw [List.foldl_cons, ih, macrosGet_mergeStep]
    by_cases hrn : r.1 = n
    · rw [if_pos hrn]
      have hfc : (r :: rs).filter (fun r => r.1 == n) =
          r :: rs.filter (fun r => r.1 == n) := by
        simp [List.filter_cons, hrn]
      rw [hfc, List.map_cons, List.foldl_cons]
    · rw [if_neg hrn]
      have hfc : (r :: rs).filter (fun r => r.1 == n) =
          rs.filter (fun r => r.1 == n) := by
        simp [List.filter_cons, hrn]
      rw [hfc]

/-! ## Claim C7 -/

/-- C7: in `syncMacros`'s best-by-name merge, a candidate record
replaces the current record for its name only when its timestamp is
strictly greater than the current record's timestamp; when two
candidates for the same name carry equal timestamps, the
earlier-scanned record is retained — the retained entry for any name is
exactly the last-write-wins (strict greater-than) fold over that name's
candidates in scan order — and records `("alpha","x",t=1)` then
`("alpha","y",t=2)` merge to `alpha -> y`. -/
theorem syncMacros_merge_keeps_strictly_newer
    (recs : List (String × String × Nat)) (n : String) :
    macrosGet (mergeMacros recs) n =
      lwwBest ((recs.filter (fun r => r.1 == n)).map (fun r => r.2)) ∧
    mergeMacros [("alpha", "x", 1), ("alpha", "y", 2)] = [("alpha", "y", 2)] := by
  constructor
  · exact macrosGet_foldl_mergeStep recs [] n
  · decide

/-! ## Claim C3 -/

theorem buildMergedOutput_go (recs : List (String × String × Nat)) (txt : String) (k : Nat)
    (h : ∀ r ∈ recs, r.2.1 ≠ "") :
    recs.foldl appendMacroRecord (some (txt, k)) =
      some (txt ++ mergedTextSpec recs,
            k + (recs.filter (fun r => firstCharIsLower r.2.1)).length) := by
  induction recs generalizing txt k with
  | nil => simp [mergedTextSpec]
  | cons r rs ih =>
    have hr : r.2.1 ≠ "" := h r (List.mem_cons_self r rs)
    obtain ⟨c, cs, hdata⟩ : ∃ c cs, r.2.1.data = c :: cs := by
      cases hd : r.2.1.data with
      | nil =>
        exact absurd (by cases hb : r.2.1; simp_all) hr
      | cons c cs => exact ⟨c, cs, rfl⟩
    have hrs : ∀ r' ∈ rs, r'.2.1 ≠ "" := fun r' hr' => h r' (List.mem_cons_of_mem r hr')
    rw [List.foldl_cons]
    cases hc : (c == c.toLower) with
    | true =>
      have happ : appendMacroRecord (some (txt, k)) r =
          some (txt ++ r.1 ++ "\n" ++ r.2.1 ++ "\n", k + 1) := by
        simp [appendMacroRecord, hdata, hc]
      have hfl : firstCharIsLower r.2.1 = true := by simp [firstCharIsLower, hdata, hc]
      rw [happ, ih _ _ hrs]
      simp only [mergedTextSpec, hfl, if_true, List.filter_cons, List.length_cons,
        Option.some.injEq, Prod.mk.injEq]
      constructor
      · simp [String.append_assoc]
      · omega
    | false =>
      have happ : appendMacroRecord (some (txt, k)) r = some (txt, k) := by
        simp [appendMacroRecord, hdata, hc]
      have hfl : firstCharIsLower r.2.1 = false := by simp [firstCharIsLower, hdata, hc]
      rw [happ, ih _ _ hrs]
      simp [mergedTextSpec, hfl, List.filter_cons]

/-- C3 counterexample: on the claim's own example — records
`("Beta","z",t=1)` and `("gamma","w",t=1)` — the merged output retains
BOTH records (`macrosSynced = 2`), including the record named `"Beta"`
whose first character is not lowercase, because the source tests the
first character of the body (`macro[0]`), not of the name. -/
theorem syncMacros_name_filter_counterexample :
    syncMacrosModel exMac =
      some { mergedText := "Beta\nz\ngamma\nw\n", macrosSynced := 2, usersSynced := 0 } ∧
    firstCharIsLower "Beta" = false := by decide

/-- C3 (amended): a best-by-name record is concatenated into the merged
text (and counted in the merged count) if and only if the first
character of its **body** equals that character's lowercase form — the
name plays no role in the filter — provided every body is non-empty (an
empty body makes the source throw, modelled as `none`). -/
theorem syncMacros_filter_is_on_body
    (recs : List (String × String × Nat)) (h : ∀ r ∈ recs, r.2.1 ≠ "") :
    buildMergedOutput recs =
      some (mergedTextSpec recs,
            (recs.filter (fun r => firstCharIsLower r.2.1)).length) := by
  unfold buildMergedOutput
  simpa using buildMergedOutput_go recs "" 0 h

theorem syncMacros_filter_is_on_body_witness :
    buildMergedOutput [("Beta", "z", 1), ("gamma", "w", 1)] =
      some (mergedTextSpec [("Beta", "z", 1), ("gamma", "w", 1)],
            ([("Beta", "z", 1), ("gamma", "w", 1)].filter
              (fun r => firstCharIsLower r.2.1)).length) :=
  syncMacros_filter_is_on_body [("Beta", "z", 1), ("gamma", "w", 1)] (by decide)

/-! ## Claim C4 -/

theorem filter_range_lt (n m : Nat) :
    (List.range n).filter (fun i => decide (i < m)) = List.range (min m n) := by
  induction n with
  | zero => simp
  | succ n ih =>
    rw [List.range_succ, List.filter_append, ih]
    by_cases h : n < m
    · have h1 : min m n = n := by omega
      have h2 : min m (n + 1) = n + 1 := by omega
      simp [h, h1, h2, List.range_succ]
    · have h1 : min m n = m := by omega
      have h2 : min m (n + 1) = m := by omega
      simp [h, h1, h2]

theorem macroPairIdx_eq_range (n : Nat) :
    macroPairIdx n = List.range ((n - 1) / 2) := by
  unfold macroPairIdx
  have hpt : ∀ i, (decide (2 * i + 2 < n)) = (decide (i < (n - 1) / 2)) := by
    intro i
    by_cases h : 2 * i + 2 < n
    · have h2 : i < (n - 1) / 2 := by omega
      simp [h, h2]
    · have h2 : ¬(i < (n - 1) / 2) := by omega
      simp [h, h2]
  rw [List.filter_congr (fun i _ => hpt i), filter_range_lt]
  congr 1
  omega

theorem specPairsIdx_eq_range (n : Nat) :
    (List.range n).filter (fun i => decide (2 * i + 1 < n)) = List.range (n / 2) := by
  have hpt : ∀ i, (decide (2 * i + 1 < n)) = (decide (i < n / 2)) := by
    intro i
    by_cases h : 2 * i + 1 < n
    · have h2 : i < n / 2 := by omega
      simp [h, h2]
    · have h2 : ¬(i < n / 2) := by omega
      simp [h, h2]
  rw [List.filter_congr (fun i _ => hpt i), filter_range_lt]
  congr 1
  omega

/-- C4 counterexample: a macro file whose content is `"a\nb"` (one
complete `(name, body)` pair, no trailing newline) contributes **no**
candidate record, although the claim says every pair — including the
final one — contributes. -/
theorem syncMacros_final_pair_dropped :
    macroRecords "a\nb" 7 = [] ∧ specPairs "a\nb" = [("a", "b")] := by decide

/-- C4 (amended): every macro file's content is split on newlines and
read as alternating `(name, body)` pairs stamped with the file's mtime,
but only the first `(L - 1) / 2` pairs are taken, where `L` is the
number of split segments (the loop bound `i < lines.length / 2 - 1`):
a file of `2k` lines followed by a terminating newline (`L = 2k + 1`)
contributes all `k` pairs, while one whose final pair is not followed
by a newline (`L = 2k`) drops that final pair. -/
theorem syncMacros_pairs_take (lines : List String) (date : Nat) :
    macroRecordsOfLines lines date =
      ((specPairsOfLines lines).take ((lines.length - 1) / 2)).map
        (fun p => (p.1, p.2, date)) := by
  unfold macroRecordsOfLines specPairsOfLines
  rw [macroPairIdx_eq_range, specPairsIdx_eq_range, ← List.map_take, List.take_range]
  have hmin : min ((lines.length - 1) / 2) (lines.length / 2) = (lines.length - 1) / 2 := by
    omega
  rw [hmin, List.map_map]
  rfl

/-! ## Claim C2 -/

/-- C2: evaluation of the watch orchestrator's depth-two handler on the
change event `alice/foo.js` with user filter `["alice", "bob"]` and a
transformer returning `"x"`: exactly one deployment write is issued and
it does go to the owning user `alice` (the brace-less loop's
`writeFilePersist` runs once, with the outer `user` binding), but the
emitted `SyncResult`'s target-user list is `["alice", "alice", "bob"]`,
not the single owning user the claim (and spec §4.3) require. -/
theorem watch_depth2_single_write_wrong_report :
    watchCase2 ["alice", "bob"] [] (fun _ => some "x") "alice/foo.js" "c" =
      some ({ file := "alice/foo.js", users := ["alice", "alice", "bob"], minLength := 1,
              error := none },
            [{ user := "alice", script := "foo", content := "x" }]) := by decide

/-! ## Claim C5 -/

theorem awaitedWrites_joinAll (ps : List Prom) :
    awaitedWrites (joinAll ps) = ps.flatMap awaitedWrites := by
  induction ps with
  | nil => rfl
  | cons p ps ih =>
    have hstep : joinAll (p :: ps) = Prom.par p (joinAll ps) := rfl
    rw [hstep,
      show awaitedWrites (Prom.par p (joinAll ps)) =
        awaitedWrites p ++ awaitedWrites (joinAll ps) from rfl,
      ih, List.flatMap_cons]

/-- C5: the promise returned by `push` settles without awaiting a
single deployment write: the private read/transform/write chains are
started by the directory-scan callbacks without being collected, and
the global write promises are collected only into an inner array that
no awaited promise joins — so `awaitedWrites` of the push promise is
always empty, while (second conjunct, on the example input) writes are
scheduled. -/
theorem push_promise_resolves_without_awaiting_writes
    (inp : PushInput) (T : String → Option String) (users scripts : List String) :
    awaitedWrites (pushProm inp T users scripts) = [] ∧
    allWrites (pushProm exInp exT [] []) =
      [{ user := "alice", script := "foo", content := "P x" },
       { user := "bob", script := "foo", content := "G" }] := by
  constructor
  · have h1 : ∀ d, awaitedWrites (dirScanProm inp T scripts d) = [] := fun _ => rfl
    have h2 : ∀ g, awaitedWrites (globChainProm inp T users scripts g) = [] := fun _ => rfl
    unfold pushProm
    simp only [awaitedWrites, awaitedWrites_joinAll]
    have e1 : ((filteredDirs inp users).map
        (dirScanProm inp T scripts)).flatMap awaitedWrites = [] := by
      rw [List.flatMap_eq_nil_iff]
      intro x hx
      obtain ⟨d, _, hd⟩ := List.mem_map.mp hx
      rw [← hd]
      exact h1 d
    have e2 : ((inp.topEntries.filter (globalEligible scripts)).map
        (globChainProm inp T users scripts)).flatMap awaitedWrites = [] := by
      rw [List.flatMap_eq_nil_iff]
      intro x hx
      obtain ⟨g, _, hg⟩ := List.mem_map.mp hx
      rw [← hg]
      exact h2 g
    rw [e1, e2]
    rfl
  · decide

end HSM
